import Mathlib

/-!
# Verification of the ROCm TensorFlow ReLU / Quant8 GPU kernels

Shallow embedding of `tensorflow/core/kernels/relu_op_gpu.cu.cc` and
`tensorflow/core/kernels/relu_op_functor.h`, together with proofs settling
the specification claims about these kernels.

Modelling conventions:
* machine integers are `ℕ` with explicit `% 2 ^ 32` where 32-bit wraparound
  matters; bitwise C operators map to `&&&`, `|||`, `^^^`, `<<<`, `>>>`;
* 16-bit IEEE half values are represented by their bit patterns (`ℕ < 2 ^ 16`);
* real-valued activation math (`relu_op_functor.h`) is modelled over `ℚ`,
  which is exact for every arithmetic operation those functors perform;
* a GPU launch of `P` total threads is modelled by simulating every thread
  `t < P`; each thread produces a list of `(index, value)` write events, and
  a kernel's result is the input buffer with the writes applied.  The write
  sets are proved disjoint, so this canonical serialization agrees with every
  hardware schedule.
-/

namespace TFReluGpu

/-! ## GPU thread iteration patterns

`gridStrideLoop P n index` is the list of loop indices executed by the thread
whose first index is `index`, in a grid-stride loop `while (index < n) ...
index += P` with `P = gridDim.x * blockDim.x` total threads
(`ReluGradHalfKernel`, source lines 57-90, and `CUDA_1D_KERNEL_LOOP` in
`Relu_int8x4_kernel`, lines 209-221).  On hardware `P ≥ 1` always; the
`0 < P` guard only makes the function total. -/
def gridStrideLoopAux (P n : ℕ) : ℕ → ℕ → List ℕ
  | 0, _ => []
  | fuel + 1, index => if index < n then index :: gridStrideLoopAux P n fuel (index + P) else []

def gridStrideLoop (P n index : ℕ) : List ℕ :=
  if 0 < P then gridStrideLoopAux P n (n - index) index else []

/-- The value of the loop variable after a grid-stride loop terminates
(used by the odd-tail test `index == half2_count` at source line 92). -/
def gridStrideFinalAux (P n : ℕ) : ℕ → ℕ → ℕ
  | 0, index => index
  | fuel + 1, index => if index < n then gridStrideFinalAux P n fuel (index + P) else index

def gridStrideFinal (P n index : ℕ) : ℕ :=
  if 0 < P then gridStrideFinalAux P n (n - index) index else index

/-- The fuel argument of `gridStrideLoopAux` is irrelevant once it is at
least the number of remaining loop iterations. -/
theorem gridStrideLoopAux_congr {P n : ℕ} (hP : 0 < P) :
    ∀ (fuel₁ : ℕ) (fuel₂ index : ℕ), n - index ≤ fuel₁ → n - index ≤ fuel₂ →
      gridStrideLoopAux P n fuel₁ index = gridStrideLoopAux P n fuel₂ index
  | 0, fuel₂, index, h₁, h₂ => by
      cases fuel₂ with
      | zero => rfl
      | succ fuel₂ =>
          show _ = if index < n then _ else _
          rw [if_neg (by omega)]
          rfl
  | fuel₁ + 1, fuel₂, index, h₁, h₂ => by
      cases fuel₂ with
      | zero =>
          show (if index < n then _ else _) = _
          rw [if_neg (by omega)]
          rfl
      | succ fuel₂ =>
          show (if index < n then _ else _) = if index < n then _ else _
          by_cases h : index < n
          · rw [if_pos h, if_pos h,
              gridStrideLoopAux_congr hP fuel₁ fuel₂ (index + P) (by omega) (by omega)]
          · rw [if_neg h, if_neg h]

/-- Unfolding equation for `gridStrideLoop` matching the source loop. -/
theorem gridStrideLoop_unfold {P n : ℕ} (hP : 0 < P) (index : ℕ) :
    gridStrideLoop P n index =
      if index < n then index :: gridStrideLoop P n (index + P) else [] := by
  unfold gridStrideLoop
  rw [if_pos hP, if_pos hP]
  by_cases h : index < n
  · rw [if_pos h]
    have he : n - index = (n - index - 1) + 1 := by omega
    rw [he]
    show (if index < n then _ else _) = _
    rw [if_pos h]
    rw [gridStrideLoopAux_congr hP (n - index - 1) (n - (index + P)) (index + P)
      (by omega) (by omega)]
  · rw [if_neg h]
    have he : n - index = 0 := by omega
    rw [he]
    rfl

/-- Fuel irrelevance for `gridStrideFinalAux`. -/
theorem gridStrideFinalAux_congr {P n : ℕ} (hP : 0 < P) :
    ∀ (fuel₁ : ℕ) (fuel₂ index : ℕ), n - index ≤ fuel₁ → n - index ≤ fuel₂ →
      gridStrideFinalAux P n fuel₁ index = gridStrideFinalAux P n fuel₂ index
  | 0, fuel₂, index, h₁, h₂ => by
      cases fuel₂ with
      | zero => rfl
      | succ fuel₂ =>
          show _ = if index < n then _ else _
          rw [if_neg (by omega)]
          rfl
  | fuel₁ + 1, fuel₂, index, h₁, h₂ => by
      cases fuel₂ with
      | zero =>
          show (if index < n then _ else _) = _
          rw [if_neg (by omega)]
          rfl
      | succ fuel₂ =>
          show (if index < n then _ else _) = if index < n then _ else _
          by_cases h : index < n
          · rw [if_pos h, if_pos h,
              gridStrideFinalAux_congr hP fuel₁ fuel₂ (index + P) (by omega) (by omega)]
          · rw [if_neg h, if_neg h]

/-- Unfolding equation for `gridStrideFinal` matching the source loop. -/
theorem gridStrideFinal_unfold {P n : ℕ} (hP : 0 < P) (index : ℕ) :
    gridStrideFinal P n index =
      if index < n then gridStrideFinal P n (index + P) else index := by
  unfold gridStrideFinal
  rw [if_pos hP, if_pos hP]
  by_cases h : index < n
  · rw [if_pos h]
    have he : n - index = (n - index - 1) + 1 := by omega
    rw [he]
    show (if index < n then _ else _) = _
    rw [if_pos h]
    rw [gridStrideFinalAux_congr hP (n - index - 1) (n - (index + P)) (index + P)
      (by omega) (by omega)]
  · rw [if_neg h]
    have he : n - index = 0 := by omega
    rw [he]
    rfl

/-- Apply a list of `(index, value)` write events to a buffer. -/
def applyWrites {α : Type} (ws : List (ℕ × α)) (buf : List α) : List α :=
  ws.foldl (fun b w => b.set w.1 w.2) buf

/-- Membership in a grid-stride loop: the indices visited starting from
`index` are exactly those `j < n` with `j ≡ index (mod P)` and `index ≤ j`. -/
theorem mem_gridStrideLoop {P n : ℕ} (hP : 0 < P) (index j : ℕ) :
    j ∈ gridStrideLoop P n index ↔ (index ≤ j ∧ j < n ∧ (j - index) % P = 0) := by
  generalize hm : n - index = m
  induction m using Nat.strong_induction_on generalizing index with
  | _ m ih =>
    rw [gridStrideLoop_unfold hP]
    by_cases h : index < n
    · simp only [h, if_true, List.mem_cons]
      rw [ih (n - (index + P)) (by omega) (index + P) rfl]
      constructor
      · rintro (rfl | ⟨h1, h2, h3⟩)
        · exact ⟨le_refl _, h, by simp⟩
        · refine ⟨by omega, h2, ?_⟩
          have he : j - index = (j - (index + P)) + P := by omega
          rw [he, Nat.add_mod_right]
          exact h3
      · rintro ⟨h1, h2, h3⟩
        rcases Nat.lt_or_ge j (index + P) with hj | hj
        · left
          have hmod := Nat.mod_eq_of_lt (show j - index < P by omega)
          omega
        · right
          refine ⟨hj, h2, ?_⟩
          have he : j - index = (j - (index + P)) + P := by omega
          rw [he, Nat.add_mod_right] at h3
          exact h3
    · simp only [h, if_false, List.not_mem_nil, false_iff]
      omega

/-- For a thread id `t < P`, the grid-stride loop visits exactly the
indices `j < n` in the residue class `j % P = t`. -/
theorem mem_gridStrideLoop_thread {P n t : ℕ} (hP : 0 < P) (ht : t < P) (j : ℕ) :
    j ∈ gridStrideLoop P n t ↔ (j < n ∧ j % P = t) := by
  rw [mem_gridStrideLoop hP]
  constructor
  · rintro ⟨h1, h2, h3⟩
    refine ⟨h2, ?_⟩
    obtain ⟨k, hk⟩ := Nat.dvd_of_mod_eq_zero h3
    have hj : j = t + P * k := by omega
    rw [hj, Nat.add_mul_mod_self_left, Nat.mod_eq_of_lt ht]
  · rintro ⟨h1, h2⟩
    have hle : t ≤ j := h2 ▸ Nat.mod_le j P
    have h0 := Nat.div_add_mod j P
    rw [h2] at h0
    refine ⟨hle, h1, ?_⟩
    have he : j - t = P * (j / P) := by omega
    rw [he, Nat.mul_mod_right]

/-- The post-loop value of the loop variable: congruent to the start mod `P`,
at least the start, and the first such value `≥ n` when the loop ran. -/
theorem gridStrideFinal_spec {P n : ℕ} (hP : 0 < P) (index : ℕ) :
    gridStrideFinal P n index % P = index % P ∧
      index ≤ gridStrideFinal P n index ∧
      (index < n → n ≤ gridStrideFinal P n index ∧
        gridStrideFinal P n index < n + P) ∧
      (n ≤ index → gridStrideFinal P n index = index) := by
  generalize hm : n - index = m
  induction m using Nat.strong_induction_on generalizing index with
  | _ m ih =>
    rw [gridStrideFinal_unfold hP]
    by_cases h : index < n
    · simp only [h, if_true]
      obtain ⟨h1, h2, h3, h4⟩ := ih (n - (index + P)) (by omega) (index + P) rfl
      refine ⟨by rw [h1]; exact Nat.add_mod_right index P, by omega, fun _ => ?_, fun hn => by omega⟩
      by_cases h5 : index + P < n
      · obtain ⟨h6, h7⟩ := h3 h5
        exact ⟨h6, h7⟩
      · rw [h4 (by omega)]
        omega
    · rw [if_neg h]
      exact ⟨rfl, le_refl _, fun hlt => absurd hlt h, fun _ => rfl⟩

/-- Among the thread ids `0 ≤ t < P`, exactly `t = n % P` ends the
grid-stride loop with loop variable equal to `n`. -/
theorem gridStrideFinal_eq_iff {P n t : ℕ} (hP : 0 < P) (ht : t < P) :
    gridStrideFinal P n t = n ↔ t = n % P := by
  obtain ⟨h1, h2, h3, h4⟩ := gridStrideFinal_spec (n := n) hP t
  constructor
  · intro h
    rw [h] at h1
    rw [h1, Nat.mod_eq_of_lt ht]
  · intro h
    by_cases h5 : t < n
    · obtain ⟨h6, h7⟩ := h3 h5
      set f := gridStrideFinal P n t with hf
      have h9 : f % P = n % P := by
        rw [h1, Nat.mod_eq_of_lt ht, h]
      have hd : f - n < P := by omega
      have hfe : f = n + (f - n) := by omega
      rw [hfe, Nat.add_mod] at h9
      rw [Nat.mod_eq_of_lt hd] at h9
      have hnP : n % P < P := Nat.mod_lt n hP
      rcases Nat.lt_or_ge (n % P + (f - n)) P with hc | hc
      · rw [Nat.mod_eq_of_lt hc] at h9
        omega
      · rw [Nat.mod_eq_sub_mod hc, Nat.mod_eq_of_lt (by omega)] at h9
        omega
    · have h6 := h4 (by omega)
      have h7 : n % P ≤ n := Nat.mod_le n P
      omega

/-! ## Half-precision ReLU gradient kernels

`ReluGradHalfKernel` (source lines 53-104) and `ReluGradHalfKernelVector`
(lines 106-164).  A half value is its 16-bit pattern.  The `arch` flag is
the compile-time `__CUDA_ARCH__ >= 530` condition selecting the native
half2 path (`__hgt2`/`__hmul2`) over the float fallback path. -/

/-- NaN test on a binary16 pattern: exponent field all ones, mantissa
field nonzero. -/
def isNaN16 (h : ℕ) : Bool := (h &&& 0x7C00 == 0x7C00) && (h &&& 0x3FF != 0)

/-- The comparison `feature > 0` on a binary16 pattern (the half-to-float
conversion at lines 98/158 is exact, so the float comparison agrees with the
half one): sign clear, not a zero, not a NaN. -/
def halfIsPos (h : ℕ) : Bool := (h &&& 0x8000 == 0) && (h &&& 0x7FFF != 0) && !isNaN16 h

/-- Scalar float-path value (source lines 97-101, 157-161, and the lane-wise
fallback at 77-83 / 136-142): `(feature_f > 0) ? grad_f : 0`, converted back
to half.  The half→float→half round trip is the identity on bit patterns. -/
def reluGradHalfVal (g f : ℕ) : ℕ := if halfIsPos f then g else 0

/-- Native half2 lane value (lines 72-74 / 131-133):
`__hmul2(__hgt2(f, 0), g)`.  The mask lane is `1.0` or `0.0`; the IEEE
binary16 product `1.0 * g` is `g` and `0.0 * g` is a zero carrying the sign
of `g` (the product of the signs).  NaN payloads are modelled as passed
through unchanged. -/
def reluGradHalf2FastVal (g f : ℕ) : ℕ := if halfIsPos f then g else g &&& 0x8000

/-- Per-lane value of either compilation path. -/
def laneVal (arch : Bool) (g f : ℕ) : ℕ :=
  if arch then reluGradHalf2FastVal g f else reluGradHalfVal g f

/-- Write events of one thread `t` of `ReluGradHalfKernel` (lines 56-103):
the grid-stride loop over `half2_count = count >> 1` writes the half2 at
`2*index, 2*index+1`; afterwards, if `count` is odd and the post-loop index
equals `half2_count`, the thread writes element `count - 1` via the float
path. -/
def pairedThreadWrites (arch : Bool) (P count : ℕ) (g f : ℕ → ℕ) (t : ℕ) : List (ℕ × ℕ) :=
  ((gridStrideLoop P (count >>> 1) t).flatMap fun i =>
    [(2 * i, laneVal arch (g (2 * i)) (f (2 * i))),
     (2 * i + 1, laneVal arch (g (2 * i + 1)) (f (2 * i + 1)))]) ++
  (if count % 2 = 1 ∧ gridStrideFinal P (count >>> 1) t = count >>> 1 then
    [(count - 1, reluGradHalfVal (g (count - 1)) (f (count - 1)))] else [])

/-- All write events of a `ReluGradHalfKernel` launch with `P` total threads. -/
def ReluGradHalfKernelWrites (arch : Bool) (P count : ℕ) (g f : ℕ → ℕ) : List (ℕ × ℕ) :=
  (List.range P).flatMap (pairedThreadWrites arch P count g f)

/-- Write events of one thread `t` of `ReluGradHalfKernelVector`
(lines 109-163): if `t < half8_count = count / 8`, a 128-bit vector store of
8 lanes at `8*t .. 8*t+7` computed by four half2 operations; the first
`count % 8` threads additionally write one trailing element each via the
float path. -/
def vectorThreadWrites (arch : Bool) (count : ℕ) (g f : ℕ → ℕ) (t : ℕ) : List (ℕ × ℕ) :=
  (if t < count / 8 then
    (List.range 8).map fun l =>
      (8 * t + l, laneVal arch (g (8 * t + l)) (f (8 * t + l)))
   else []) ++
  (if t < count % 8 then
    [(count / 8 * 8 + t, reluGradHalfVal (g (count / 8 * 8 + t)) (f (count / 8 * 8 + t)))]
   else [])

/-- All write events of a `ReluGradHalfKernelVector` launch with `P` total
threads. -/
def ReluGradHalfKernelVectorWrites (arch : Bool) (P count : ℕ) (g f : ℕ → ℕ) : List (ℕ × ℕ) :=
  (List.range P).flatMap (vectorThreadWrites arch count g f)

/-- Pointwise description of `applyWrites` when every write event carries a
value determined by its index. -/
theorem applyWrites_getElem? {α : Type} (val : ℕ → α) :
    ∀ (ws : List (ℕ × α)), (∀ p ∈ ws, p.2 = val p.1) → ∀ (buf : List α) (j : ℕ),
      (applyWrites ws buf)[j]? =
        if j ∈ ws.map Prod.fst ∧ j < buf.length then some (val j) else buf[j]?
  | [], _, buf, j => by simp [applyWrites]
  | (i, v) :: ws, hval, buf, j => by
      have hv : v = val i := hval (i, v) (List.mem_cons_self _ _)
      have ih := applyWrites_getElem? val ws
        (fun p hp => hval p (List.mem_cons_of_mem _ hp)) (buf.set i v) j
      show (applyWrites ws (buf.set i v))[j]? = _
      rw [ih]
      simp only [List.length_set, List.map_cons, List.mem_cons]
      by_cases hm : j ∈ ws.map Prod.fst ∧ j < buf.length
      · rw [if_pos hm, if_pos ⟨Or.inr hm.1, hm.2⟩]
      · rw [if_neg hm, List.getElem?_set]
        by_cases hij : i = j
        · subst hij
          by_cases hlen : i < buf.length
          · rw [if_pos rfl, if_pos hlen, if_pos ⟨Or.inl rfl, hlen⟩, hv]
          · rw [if_pos rfl, if_neg hlen, if_neg (fun hc => hlen hc.2),
              List.getElem?_eq_none (by omega)]
        · rw [if_neg hij]
          have hn : ¬((j = i ∨ j ∈ ws.map Prod.fst) ∧ j < buf.length) := by
            rintro ⟨hor, hlen⟩
            rcases hor with rfl | hmem
            · exact hij rfl
            · exact hm ⟨hmem, hlen⟩
          rw [if_neg hn]

/-- Output indices written by one paired-kernel thread. -/
theorem mem_pairedThreadWrites_fst (arch : Bool) {P count t : ℕ} (hP : 0 < P) (ht : t < P)
    (g f : ℕ → ℕ) (j : ℕ) :
    j ∈ (pairedThreadWrites arch P count g f t).map Prod.fst ↔
      ((j < 2 * (count >>> 1) ∧ (j / 2) % P = t) ∨
       (count % 2 = 1 ∧ gridStrideFinal P (count >>> 1) t = count >>> 1 ∧ j = count - 1)) := by
  unfold pairedThreadWrites
  rw [List.map_append, List.mem_append, List.map_flatMap]
  constructor
  · rintro (hp | hp)
    · left
      rw [List.mem_flatMap] at hp
      obtain ⟨i, hi, hji⟩ := hp
      rw [mem_gridStrideLoop_thread hP ht] at hi
      simp only [List.map_cons, List.map_nil, List.mem_cons, List.not_mem_nil, or_false] at hji
      rcases hji with rfl | rfl
      · exact ⟨by omega, by rw [Nat.mul_div_cancel_left i (by norm_num)]; exact hi.2⟩
      · exact ⟨by omega, by rw [show (2 * i + 1) / 2 = i by omega]; exact hi.2⟩
    · right
      rcases Decidable.em (count % 2 = 1 ∧ gridStrideFinal P (count >>> 1) t = count >>> 1)
        with hc | hc
      · rw [if_pos hc] at hp
        simp only [List.map_cons, List.map_nil, List.mem_cons, List.not_mem_nil, or_false] at hp
        exact ⟨hc.1, hc.2, hp⟩
      · rw [if_neg hc] at hp
        simp at hp
  · rintro (⟨h1, h2⟩ | ⟨h1, h2, h3⟩)
    · left
      rw [List.mem_flatMap]
      refine ⟨j / 2, ?_, ?_⟩
      · rw [mem_gridStrideLoop_thread hP ht]
        exact ⟨by omega, h2⟩
      · simp only [List.map_cons, List.map_nil, List.mem_cons, List.not_mem_nil, or_false]
        omega
    · right
      rw [if_pos ⟨h1, h2⟩]
      simp [h3]

/-- The paired kernel touches exactly the output indices `j < count`. -/
theorem mem_pairedWrites_fst (arch : Bool) {P count : ℕ} (hP : 0 < P) (g f : ℕ → ℕ) (j : ℕ) :
    j ∈ (ReluGradHalfKernelWrites arch P count g f).map Prod.fst ↔ j < count := by
  have hsh : count >>> 1 = count / 2 := Nat.shiftRight_one count
  unfold ReluGradHalfKernelWrites
  rw [List.map_flatMap]
  simp only [List.mem_flatMap, List.mem_range]
  constructor
  · rintro ⟨t, ht, hj⟩
    rw [mem_pairedThreadWrites_fst arch hP ht] at hj
    rcases hj with ⟨h1, _⟩ | ⟨h1, _, h3⟩
    · omega
    · omega
  · intro hj
    by_cases hcase : j < 2 * (count >>> 1)
    · exact ⟨(j / 2) % P, Nat.mod_lt _ hP,
        (mem_pairedThreadWrites_fst arch hP (Nat.mod_lt _ hP) g f j).2 (Or.inl ⟨hcase, rfl⟩)⟩
    · refine ⟨(count >>> 1) % P, Nat.mod_lt _ hP,
        (mem_pairedThreadWrites_fst arch hP (Nat.mod_lt _ hP) g f j).2 (Or.inr ⟨?_, ?_, ?_⟩)⟩
      · omega
      · exact (gridStrideFinal_eq_iff hP (Nat.mod_lt _ hP)).2 rfl
      · omega

/-- In the float-fallback path, every paired-kernel write stores the scalar
reference value of its index. -/
theorem pairedThreadWrites_val {P count : ℕ} (g f : ℕ → ℕ) (t : ℕ) :
    ∀ p ∈ pairedThreadWrites false P count g f t,
      p.2 = reluGradHalfVal (g p.1) (f p.1) := by
  intro p hp
  unfold pairedThreadWrites at hp
  rw [List.mem_append] at hp
  rcases hp with hp | hp
  · rw [List.mem_flatMap] at hp
    obtain ⟨i, _, hji⟩ := hp
    simp only [List.mem_cons, List.not_mem_nil, or_false] at hji
    rcases hji with rfl | rfl <;> simp [laneVal]
  · rcases Decidable.em (count % 2 = 1 ∧ gridStrideFinal P (count >>> 1) t = count >>> 1)
      with hc | hc
    · rw [if_pos hc] at hp
      simp only [List.mem_cons, List.not_mem_nil, or_false] at hp
      subst hp
      rfl
    · rw [if_neg hc] at hp
      simp at hp

/-- Output indices written by one vector-kernel thread. -/
theorem mem_vectorThreadWrites_fst (arch : Bool) {count : ℕ} (t : ℕ) (g f : ℕ → ℕ) (j : ℕ) :
    j ∈ (vectorThreadWrites arch count g f t).map Prod.fst ↔
      ((t < count / 8 ∧ 8 * t ≤ j ∧ j < 8 * t + 8) ∨
       (t < count % 8 ∧ j = count / 8 * 8 + t)) := by
  unfold vectorThreadWrites
  rw [List.map_append, List.mem_append]
  constructor
  · rintro (hp | hp)
    · left
      rcases Decidable.em (t < count / 8) with hc | hc
      · rw [if_pos hc, List.map_map] at hp
        rw [List.mem_map] at hp
        obtain ⟨l, hl, hlj⟩ := hp
        rw [List.mem_range] at hl
        simp only [Function.comp] at hlj
        exact ⟨hc, by omega, by omega⟩
      · rw [if_neg hc] at hp
        simp at hp
    · right
      rcases Decidable.em (t < count % 8) with hc | hc
      · rw [if_pos hc] at hp
        simp only [List.map_cons, List.map_nil, List.mem_cons, List.not_mem_nil, or_false] at hp
        exact ⟨hc, hp⟩
      · rw [if_neg hc] at hp
        simp at hp
  · rintro (⟨h1, h2, h3⟩ | ⟨h1, h2⟩)
    · left
      rw [if_pos h1, List.map_map, List.mem_map]
      exact ⟨j - 8 * t, by rw [List.mem_range]; omega, by simp [Function.comp]; omega⟩
    · right
      rw [if_pos h1]
      simp [h2]

/-- The vector kernel touches exactly the output indices `j < count`,
provided the launch has at least `count / 8` threads for the vector body and
`count % 8` threads for the tail (the launcher's geometry guarantees both). -/
theorem mem_vectorWrites_fst (arch : Bool) {P count : ℕ} (h8 : count / 8 ≤ P)
    (hr : count % 8 ≤ P) (g f : ℕ → ℕ) (j : ℕ) :
    j ∈ (ReluGradHalfKernelVectorWrites arch P count g f).map Prod.fst ↔ j < count := by
  unfold ReluGradHalfKernelVectorWrites
  rw [List.map_flatMap]
  simp only [List.mem_flatMap, List.mem_range]
  constructor
  · rintro ⟨t, ht, hj⟩
    rw [mem_vectorThreadWrites_fst] at hj
    rcases hj with ⟨h1, h2, h3⟩ | ⟨h1, h2⟩
    · omega
    · omega
  · intro hj
    by_cases hcase : j < 8 * (count / 8)
    · refine ⟨j / 8, by omega, ?_⟩
      rw [mem_vectorThreadWrites_fst]
      exact Or.inl ⟨by omega, by omega, by omega⟩
    · refine ⟨j - count / 8 * 8, by omega, ?_⟩
      rw [mem_vectorThreadWrites_fst]
      exact Or.inr ⟨by omega, by omega⟩

/-- In the float-fallback path, every vector-kernel write stores the scalar
reference value of its index. -/
theorem vectorThreadWrites_val {count : ℕ} (g f : ℕ → ℕ) (t : ℕ) :
    ∀ p ∈ vectorThreadWrites false count g f t,
      p.2 = reluGradHalfVal (g p.1) (f p.1) := by
  intro p hp
  unfold vectorThreadWrites at hp
  rw [List.mem_append] at hp
  rcases hp with hp | hp
  · rcases Decidable.em (t < count / 8) with hc | hc
    · rw [if_pos hc, List.mem_map] at hp
      obtain ⟨l, _, hlj⟩ := hp
      subst hlj
      simp [laneVal]
    · rw [if_neg hc] at hp
      simp at hp
  · rcases Decidable.em (t < count % 8) with hc | hc
    · rw [if_pos hc] at hp
      simp only [List.mem_cons, List.not_mem_nil, or_false] at hp
      subst hp
      rfl
    · rw [if_neg hc] at hp
      simp at hp

/-- Where `P` covers the whole loop range, the grid-stride loop of thread
`t` runs at most one iteration. -/
theorem gridStrideLoop_of_le {P n : ℕ} (hn : n ≤ P) (hP : 0 < P) (t : ℕ) :
    gridStrideLoop P n t = if t < n then [t] else [] := by
  rw [gridStrideLoop_unfold hP]
  by_cases h : t < n
  · rw [if_pos h, if_pos h, gridStrideLoop_unfold hP, if_neg (by omega)]
  · rw [if_neg h, if_neg h]

/-- Where `P` covers the whole loop range, the post-loop index of thread `t`. -/
theorem gridStrideFinal_of_le {P n : ℕ} (hn : n ≤ P) (hP : 0 < P) (t : ℕ) :
    gridStrideFinal P n t = if t < n then t + P else t := by
  rw [gridStrideFinal_unfold hP]
  by_cases h : t < n
  · rw [if_pos h, if_pos h, gridStrideFinal_unfold hP, if_neg (by omega)]
  · rw [if_neg h, if_neg h]

/-- Multiplicity of an element in a flatMap over thread ids. -/
theorem count_flatMap_range {α : Type} [DecidableEq α] (f : ℕ → List α) (a : α) :
    ∀ P, ((List.range P).flatMap f).count a = ∑ t in Finset.range P, (f t).count a
  | 0 => by simp
  | P + 1 => by
      rw [List.range_succ, List.flatMap_append, List.count_append,
        count_flatMap_range f a P, Finset.sum_range_succ]
      simp [List.flatMap]

/-- Claim C4 (amended): in the float-fallback compilation path (the one taken
when native half2 comparisons are unavailable, e.g. on the ROCm build), the
paired half2 `ReluGradHalfKernel` and the 8-wide `ReluGradHalfKernelVector`
produce bit-identical output buffers for every gradient/feature buffer pair,
every buffer length, and every launch geometry covering the work items.
(As stated over both compilation paths the claim fails, see the
counterexample: under the native half2 path the `__hmul2` mask multiply can
produce `-0.0` where the scalar float tail produces `+0.0`.) -/
theorem relu_grad_half_tiers_equiv (count P₁ P₂ : ℕ) (g f : ℕ → ℕ) (buf : List ℕ)
    (hP₁ : 0 < P₁) (h8 : count / 8 ≤ P₂) (hr : count % 8 ≤ P₂) :
    applyWrites (ReluGradHalfKernelWrites false P₁ count g f) buf =
      applyWrites (ReluGradHalfKernelVectorWrites false P₂ count g f) buf := by
  have hval1 : ∀ p ∈ ReluGradHalfKernelWrites false P₁ count g f,
      p.2 = reluGradHalfVal (g p.1) (f p.1) := by
    intro p hp
    rw [ReluGradHalfKernelWrites, List.mem_flatMap] at hp
    obtain ⟨t, _, hp⟩ := hp
    exact pairedThreadWrites_val g f t p hp
  have hval2 : ∀ p ∈ ReluGradHalfKernelVectorWrites false P₂ count g f,
      p.2 = reluGradHalfVal (g p.1) (f p.1) := by
    intro p hp
    rw [ReluGradHalfKernelVectorWrites, List.mem_flatMap] at hp
    obtain ⟨t, _, hp⟩ := hp
    exact vectorThreadWrites_val g f t p hp
  apply List.ext_getElem?
  intro j
  rw [applyWrites_getElem? (fun i => reluGradHalfVal (g i) (f i)) _ hval1 buf j,
    applyWrites_getElem? (fun i => reluGradHalfVal (g i) (f i)) _ hval2 buf j]
  by_cases hc : j < count ∧ j < buf.length
  · rw [if_pos ⟨(mem_pairedWrites_fst false hP₁ g f j).2 hc.1, hc.2⟩,
      if_pos ⟨(mem_vectorWrites_fst false h8 hr g f j).2 hc.1, hc.2⟩]
  · rw [if_neg (fun hx => hc ⟨(mem_pairedWrites_fst false hP₁ g f j).1 hx.1, hx.2⟩),
      if_neg (fun hx => hc ⟨(mem_vectorWrites_fst false h8 hr g f j).1 hx.1, hx.2⟩)]

/-- Witness for the amended C4 theorem at a concrete unaligned-size input:
`count = 5`, a 3-thread paired launch against a 5-thread vector launch. -/
theorem relu_grad_half_tiers_equiv_witness :
    applyWrites (ReluGradHalfKernelWrites false 3 5 (fun j => 0x3C00 + j)
        (fun j => if j % 2 = 0 then 0x3C00 else 0xBC00)) [9, 9, 9, 9, 9] =
      applyWrites (ReluGradHalfKernelVectorWrites false 5 5 (fun j => 0x3C00 + j)
        (fun j => if j % 2 = 0 then 0x3C00 else 0xBC00)) [9, 9, 9, 9, 9] :=
  relu_grad_half_tiers_equiv 5 3 5 _ _ _ (by decide) (by decide) (by decide)

set_option maxRecDepth 100000 in
/-- Claim C4 (counterexample to the claim as stated): with the native half2
path (`__CUDA_ARCH__ >= 530`), `count = 2`, gradient = feature = `-1.0`
(pattern `0xBC00`), and the launcher geometries (any paired geometry, one
512-thread block for the vector kernel), the paired kernel computes
`__hmul2(0.0, -1.0) = -0.0` (pattern `0x8000`) for both elements while the
vector kernel handles both elements in its scalar float tail, producing
`+0.0` (pattern `0x0000`): the outputs differ bitwise. -/
theorem relu_grad_half_tiers_counterexample :
    applyWrites (ReluGradHalfKernelWrites true 1 2 (fun _ => 0xBC00) (fun _ => 0xBC00))
        [0, 0] ≠
      applyWrites (ReluGradHalfKernelVectorWrites true 512 2 (fun _ => 0xBC00) (fun _ => 0xBC00))
        [0, 0] := by decide

/-- Claim C10: in `ReluGradHalfKernel`, for every `count > 0` and every launch
geometry with `P ≥ ⌈count/2⌉` total threads, each output index `j < count`
is written exactly once per launch; moreover when `count` is odd, a thread's
post-loop grid-stride index equals `half2_count = ⌊count/2⌋` — the condition
guarding the write of the final element — for exactly the one thread
`t = ⌊count/2⌋`. -/
theorem paired_half_kernel_writes_once (arch : Bool) (P count : ℕ) (g f : ℕ → ℕ)
    (hcount : 0 < count) (hP : (count + 1) / 2 ≤ P) :
    (∀ j, j < count →
      ((ReluGradHalfKernelWrites arch P count g f).map Prod.fst).count j = 1) ∧
    (count % 2 = 1 → ∀ t, t < P →
      (gridStrideFinal P (count >>> 1) t = count >>> 1 ↔ t = count >>> 1)) := by
  have hsh : count >>> 1 = count / 2 := Nat.shiftRight_one count
  have hP0 : 0 < P := by omega
  have hhc : count >>> 1 ≤ P := by omega
  constructor
  · intro j hj
    unfold ReluGradHalfKernelWrites
    rw [List.map_flatMap, count_flatMap_range]
    have hthread : ∀ t ∈ Finset.range P,
        ((pairedThreadWrites arch P count g f t).map Prod.fst).count j
          = (if t = j / 2 ∧ j / 2 < count / 2 then 1 else 0)
            + (if (count % 2 = 1 ∧ j = count - 1) ∧ t = count / 2 then 1 else 0) := by
      intro t ht
      rw [Finset.mem_range] at ht
      unfold pairedThreadWrites
      rw [List.map_append, List.count_append, List.map_flatMap,
        gridStrideLoop_of_le hhc hP0 t, gridStrideFinal_of_le hhc hP0 t,
        apply_ite (List.map (Prod.fst (α := ℕ) (β := ℕ))), hsh]
      by_cases h : t < count / 2
      · simp only [h, if_true, List.flatMap_cons, List.flatMap_nil, List.append_nil,
          List.map_cons, List.map_nil]
        rw [if_neg (show ¬(count % 2 = 1 ∧ t + P = count / 2) by omega),
          if_neg (show ¬((count % 2 = 1 ∧ j = count - 1) ∧ t = count / 2) by omega),
          List.count_nil, List.count_cons, List.count_cons, List.count_nil]
        simp only [beq_iff_eq]
        split_ifs <;> omega
      · simp only [h, if_false, List.flatMap_nil, List.map_nil, List.count_nil]
        rw [if_neg (show ¬(t = j / 2 ∧ j / 2 < count / 2) by omega)]
        by_cases h2 : count % 2 = 1 ∧ t = count / 2
        · rw [if_pos ⟨h2.1, h2.2⟩, List.map_cons, List.map_nil, List.count_cons,
            List.count_nil]
          simp only [beq_iff_eq]
          split_ifs <;> omega
        · rw [if_neg (by tauto), if_neg (by tauto), List.count_nil]
    rw [Finset.sum_congr rfl hthread, Finset.sum_add_distrib]
    by_cases hja : j / 2 < count / 2
    · have s1 : (∑ t in Finset.range P, if t = j / 2 ∧ j / 2 < count / 2 then 1 else 0) = 1 := by
        rw [Finset.sum_congr rfl (fun t _ => by rw [if_congr (and_iff_left hja) rfl rfl]),
          Finset.sum_ite_eq' (Finset.range P) (j / 2) (fun _ => 1),
          if_pos (Finset.mem_range.2 (by omega))]
      have s2 : (∑ t in Finset.range P,
          if (count % 2 = 1 ∧ j = count - 1) ∧ t = count / 2 then 1 else 0) = 0 := by
        apply Finset.sum_eq_zero
        intro t _
        rw [if_neg ?_]
        rintro ⟨⟨hodd, hjc⟩, rfl⟩
        omega
      rw [s1, s2]
    · have s1 : (∑ t in Finset.range P, if t = j / 2 ∧ j / 2 < count / 2 then 1 else 0) = 0 := by
        apply Finset.sum_eq_zero
        intro t _
        rw [if_neg (by tauto)]
      have s2 : (∑ t in Finset.range P,
          if (count % 2 = 1 ∧ j = count - 1) ∧ t = count / 2 then 1 else 0) = 1 := by
        have hodd : count % 2 = 1 ∧ j = count - 1 := by omega
        rw [Finset.sum_congr rfl (fun t _ => by rw [if_congr (and_iff_right hodd) rfl rfl]),
          Finset.sum_ite_eq' (Finset.range P) (count / 2) (fun _ => 1),
          if_pos (Finset.mem_range.2 (by omega))]
      rw [s1, s2]
  · intro hodd t ht
    rw [hsh, gridStrideFinal_of_le (by omega) hP0 t]
    by_cases h : t < count / 2
    · rw [if_pos h]
      omega
    · rw [if_neg h]

/-- Witness for C10 at `count = 5`, `P = 3` (grid-stride loops run twice). -/
theorem paired_half_kernel_writes_once_witness :
    (∀ j, j < 5 →
      ((ReluGradHalfKernelWrites false 3 5 (fun j => j) (fun j => j)).map Prod.fst).count j = 1) ∧
    (5 % 2 = 1 → ∀ t, t < 3 →
      (gridStrideFinal 3 (5 >>> 1) t = 5 >>> 1 ↔ t = 5 >>> 1)) :=
  paired_half_kernel_writes_once false 3 5 (fun j => j) (fun j => j) (by decide) (by decide)

/-! ## Packed int8 ReLU (`Relu_int8x4_kernel`, source lines 206-222)

The non-CUDA (ROCm) branch computes, per 32-bit word `w` holding four
signed 8-bit lanes:
`signs = ((~w) & 0x80808080) >> 7`, fanned out by `<<1`, `<<2`, `<<4` ORs,
masked with `0x7f7f7f7f`, and finally ANDed with `w`.  `~` on a 32-bit word
is modelled as XOR with `0xFFFFFFFF`; the shifts are masked with `% 2 ^ 32`
(the `uint32` wraparound; no intermediate actually overflows). -/

/-- The bit-parallel fallback body of `Relu_int8x4_kernel` (lines 213-219). -/
def Relu_int8x4 (w : ℕ) : ℕ :=
  let signs0 := ((0xFFFFFFFF ^^^ w) &&& 0x80808080) >>> 7
  let signs1 := (signs0 ||| (signs0 <<< 1)) % 2 ^ 32
  let signs2 := (signs1 ||| (signs1 <<< 2)) % 2 ^ 32
  let signs3 := (signs2 ||| (signs2 <<< 4)) % 2 ^ 32
  let signs4 := signs3 &&& 0x7f7f7f7f
  w &&& signs4

/-- Byte lane `k` of a 32-bit word. -/
def byteLane (w k : ℕ) : ℕ := (w >>> (8 * k)) % 2 ^ 8

/-- Scalar reference: `max(b, 0)` on a two's-complement signed byte
(bit patterns `128..255` are the negative values). -/
def relu8 (b : ℕ) : ℕ := if 128 ≤ b then 0 else b

/-- Pack four byte lanes back into a 32-bit word. -/
def packBytes (b0 b1 b2 b3 : ℕ) : ℕ := b0 + 2 ^ 8 * b1 + 2 ^ 16 * b2 + 2 ^ 24 * b3

/-- Scalar int8 `max(·,0)` reference applied independently to each lane. -/
def Relu_int8x4_ref (w : ℕ) : ℕ :=
  packBytes (relu8 (byteLane w 0)) (relu8 (byteLane w 1))
    (relu8 (byteLane w 2)) (relu8 (byteLane w 3))

theorem tb80 (j : ℕ) : (2155905152 : ℕ).testBit j =
    (decide (j = 7) || decide (j = 15) || decide (j = 23) || decide (j = 31)) := by
  by_cases h : j < 32
  · interval_cases j <;> decide
  · rw [Nat.testBit_eq_false_of_lt (by
      calc (2155905152:ℕ) < 2^32 := by norm_num
        _ ≤ 2^j := Nat.pow_le_pow_right (by norm_num) (by omega))]
    simp [show ¬(j = 7) by omega, show ¬(j = 15) by omega, show ¬(j = 23) by omega,
      show ¬(j = 31) by omega]

theorem tb7f (j : ℕ) : (2139062143 : ℕ).testBit j =
    (decide (j < 32) && !(decide (j = 7) || decide (j = 15) || decide (j = 23) ||
      decide (j = 31))) := by
  by_cases h : j < 32
  · interval_cases j <;> decide
  · rw [Nat.testBit_eq_false_of_lt (by
      calc (2139062143:ℕ) < 2^32 := by norm_num
        _ ≤ 2^j := Nat.pow_le_pow_right (by norm_num) (by omega))]
    simp [show ¬(j < 32) by omega]

theorem tbff (j : ℕ) : (4294967295 : ℕ).testBit j = decide (j < 32) := by
  rw [show (4294967295 : ℕ) = 2 ^ 32 - 1 by norm_num]
  exact Nat.testBit_two_pow_sub_one 32 j

theorem tbmod32 (x i : ℕ) : (x % 4294967296).testBit i = (decide (i < 32) && x.testBit i) := by
  rw [show (4294967296 : ℕ) = 2 ^ 32 from by norm_num]
  exact Nat.testBit_mod_two_pow x 32 i

theorem tbmod8 (x i : ℕ) : (x % 256).testBit i = (decide (i < 8) && x.testBit i) := by
  rw [show (256 : ℕ) = 2 ^ 8 from by norm_num]
  exact Nat.testBit_mod_two_pow x 8 i

/-- Bit `i < 32` of the bit-parallel fallback: bit `i` of `w`, kept only if
`i` is not a sign-bit position and the lane's sign bit is clear. -/
theorem alg_testBit (w i : ℕ) (hi : i < 32) :
    (Relu_int8x4 w).testBit i =
      (!w.testBit (8 * (i / 8) + 7) && (decide (i % 8 ≠ 7) && w.testBit i)) := by
  interval_cases i <;>
    simp [Relu_int8x4, tb80, tb7f, tbff, tbmod32, -Nat.testBit_zero] <;>
    first
      | rfl
      | (cases h : w.testBit 7 <;> simp [h])
      | (cases h : w.testBit 15 <;> simp [h])
      | (cases h : w.testBit 23 <;> simp [h])
      | (cases h : w.testBit 31 <;> simp [h])

theorem relu8_byte_lt (w k : ℕ) : relu8 (byteLane w k) < 256 := by
  unfold relu8 byteLane
  split
  · norm_num
  · exact Nat.mod_lt _ (by norm_num)

theorem packBytes_eq_or {b0 b1 b2 b3 : ℕ} (h0 : b0 < 256) (h1 : b1 < 256) (h2 : b2 < 256) :
    packBytes b0 b1 b2 b3 = ((b3 <<< 8 ||| b2) <<< 8 ||| b1) <<< 8 ||| b0 := by
  unfold packBytes
  rw [Nat.shiftLeft_eq, Nat.shiftLeft_eq, Nat.shiftLeft_eq]
  have e1 : b3 * 2 ^ 8 ||| b2 = 2 ^ 8 * b3 + b2 := by
    rw [mul_comm]
    exact (Nat.mul_add_lt_is_or (by norm_num [h2]) b3).symm
  rw [e1]
  have e2 : (2 ^ 8 * b3 + b2) * 2 ^ 8 ||| b1 = 2 ^ 8 * (2 ^ 8 * b3 + b2) + b1 := by
    rw [mul_comm]
    exact (Nat.mul_add_lt_is_or (by norm_num [h1]) _).symm
  rw [e2]
  have e3 : (2 ^ 8 * (2 ^ 8 * b3 + b2) + b1) * 2 ^ 8 ||| b0
      = 2 ^ 8 * (2 ^ 8 * (2 ^ 8 * b3 + b2) + b1) + b0 := by
    rw [mul_comm]
    exact (Nat.mul_add_lt_is_or (by norm_num [h0]) _).symm
  rw [e3]
  ring

/-- A lane holds a negative signed byte exactly when its top bit is set. -/
theorem byteLane_high (w k : ℕ) : 128 ≤ byteLane w k ↔ w.testBit (8 * k + 7) = true := by
  have hlt : byteLane w k < 256 := Nat.mod_lt _ (by norm_num)
  have hbit : ∀ b, b < 256 → (b.testBit 7 = decide (128 ≤ b)) := fun b hb => by
    rw [Nat.testBit_to_div_mod]
    exact decide_eq_decide.mpr (by omega)
  have h7 : (byteLane w k).testBit 7 = w.testBit (8 * k + 7) := by
    unfold byteLane
    simp [tbmod8]
  rw [← h7, hbit _ hlt]
  simp

theorem relu8_byte_testBit (w k j : ℕ) :
    (relu8 (byteLane w k)).testBit j =
      (decide (j < 8) && (decide (j ≠ 7) && (!w.testBit (8 * k + 7) && w.testBit (8 * k + j)))) := by
  unfold relu8
  by_cases h : 128 ≤ byteLane w k
  · rw [if_pos h]
    have := (byteLane_high w k).1 h
    simp [this]
  · rw [if_neg h]
    have hb : w.testBit (8 * k + 7) = false := by
      rcases hxy : w.testBit (8 * k + 7) with _ | _
      · rfl
      · exact absurd ((byteLane_high w k).2 hxy) h
    by_cases hj : j = 7
    · subst hj
      have he : (byteLane w k).testBit 7 = w.testBit (8 * k + 7) := by
        unfold byteLane
        simp [tbmod8]
      rw [he, hb]
      simp
    · unfold byteLane
      simp [hb, hj, tbmod8]

/-- Bit `i < 32` of the scalar per-lane reference: identical shape. -/
theorem ref_testBit (w i : ℕ) (hi : i < 32) :
    (Relu_int8x4_ref w).testBit i =
      (!w.testBit (8 * (i / 8) + 7) && (decide (i % 8 ≠ 7) && w.testBit i)) := by
  unfold Relu_int8x4_ref
  rw [packBytes_eq_or (relu8_byte_lt w 0) (relu8_byte_lt w 1) (relu8_byte_lt w 2)]
  interval_cases i <;> simp [relu8_byte_testBit, -Nat.testBit_zero]

/-- Claim C5: for every 32-bit word `w` of four signed 8-bit lanes, the
bit-parallel fallback of `Relu_int8x4_kernel` produces the same word as
applying `max(b, 0)` independently to each signed byte lane `b` of `w`. -/
theorem packed_int8_relu_equiv (w : ℕ) (hw : w < 2 ^ 32) :
    Relu_int8x4 w = Relu_int8x4_ref w := by
  apply Nat.eq_of_testBit_eq
  intro i
  by_cases hi : i < 32
  · rw [alg_testBit w i hi, ref_testBit w i hi]
  · have hpow : (2 : ℕ) ^ 32 ≤ 2 ^ i := Nat.pow_le_pow_right (by norm_num) (by omega)
    have h1 : (Relu_int8x4 w).testBit i = false := by
      apply Nat.testBit_eq_false_of_lt
      calc Relu_int8x4 w ≤ w := Nat.and_le_left
        _ < 2 ^ 32 := hw
        _ ≤ 2 ^ i := hpow
    have h2 : (Relu_int8x4_ref w).testBit i = false := by
      apply Nat.testBit_eq_false_of_lt
      have b0 := relu8_byte_lt w 0
      have b1 := relu8_byte_lt w 1
      have b2 := relu8_byte_lt w 2
      have b3 := relu8_byte_lt w 3
      calc Relu_int8x4_ref w < 2 ^ 32 := by unfold Relu_int8x4_ref packBytes; omega
        _ ≤ 2 ^ i := hpow
    rw [h1, h2]

/-- Witness for C5 at `w = 0x807F01FE` (lanes `-128, 0x7F, 0x01, -2`). -/
theorem packed_int8_relu_equiv_witness :
    (0x807F01FE : ℕ) < 2 ^ 32 ∧ Relu_int8x4 0x807F01FE = Relu_int8x4_ref 0x807F01FE :=
  ⟨by decide, packed_int8_relu_equiv 0x807F01FE (by decide)⟩

/-! ## Elementwise activation functors (`relu_op_functor.h`)

The Eigen tensor expressions are elementwise; scalars of type `T` are
modelled over `ℚ`, exact for every operation these functors perform. -/

/-- The `LeakyRelu` functor (header lines 107-118):
`(features > 0).select(features, features * alpha)` — deliberately not a
`cwiseMax`, per the source comment, because `alpha` may be `> 1` or `< 0`. -/
def LeakyRelu (alpha : ℚ) (features : List ℚ) : List ℚ :=
  features.map fun x => if 0 < x then x else x * alpha

/-- The `Relu6` functor (header lines 62-73):
`features.cwiseMax(0).cwiseMin(6)`. -/
def Relu6 (features : List ℚ) : List ℚ :=
  features.map fun x => min (max x 0) 6

/-- The `Relu6Grad` functor (header lines 77-94):
`gradients * ((features > 0) * (features < 6)).cast<T>()`. -/
def Relu6Grad (gradients features : List ℚ) : List ℚ :=
  gradients.zipWith
    (fun g x => g * ((if 0 < x then (1 : ℚ) else 0) * (if x < 6 then (1 : ℚ) else 0)))
    features

/-- Claim C6: LeakyReLU forward returns `x` when `x > 0` and `alpha * x`
otherwise, for every runtime `alpha` (including `alpha > 1` and
`alpha < 0`); with `alpha = -0.5` the input `[-2, 2]` maps to `[1, 2]`, and
a negative output (`alpha = 0.5`, `x = -2`) is not truncated to zero. -/
theorem leaky_relu_forward_spec :
    (∀ (alpha x : ℚ), LeakyRelu alpha [x] = [if 0 < x then x else alpha * x]) ∧
    LeakyRelu (-(1/2)) [-2, 2] = [1, 2] ∧
    LeakyRelu (1/2) [-2] = [-1] := by
  refine ⟨fun alpha x => ?_, by norm_num [LeakyRelu], by norm_num [LeakyRelu]⟩
  unfold LeakyRelu
  simp only [List.map]
  congr 1
  split_ifs
  · rfl
  · ring

/-- Claim C7: ReLU6 backward passes the gradient exactly when `0 < x < 6` and
returns `0` otherwise (in particular at the boundaries `x = 0` and `x = 6`),
so feeding the forward output instead of the forward input as the feature
argument yields the same backprop. -/
theorem relu6_grad_spec :
    (∀ (g x : ℚ), Relu6Grad [g] [x] = [if 0 < x ∧ x < 6 then g else 0]) ∧
    (∀ (g x : ℚ), Relu6Grad [g] [x] = Relu6Grad [g] (Relu6 [x])) := by
  constructor
  · intro g x
    unfold Relu6Grad
    simp only [List.zipWith]
    congr 1
    by_cases h1 : 0 < x <;> by_cases h2 : x < 6 <;> simp [h1, h2]
  · intro g x
    unfold Relu6Grad Relu6
    simp only [List.map, List.zipWith]
    congr 1
    by_cases h1 : 0 < x <;> by_cases h2 : x < 6
    · have he : (x ⊔ 0) ⊓ 6 = x := by rw [max_eq_left h1.le, min_eq_left h2.le]
      simp only [he]
    · have he : (x ⊔ 0) ⊓ 6 = 6 := by rw [max_eq_left h1.le, min_eq_right (not_lt.mp h2)]
      simp only [he]
      norm_num [h1, h2]
    · have he : (x ⊔ 0) ⊓ 6 = 0 := by rw [max_eq_right (not_lt.mp h1), min_eq_left (by norm_num)]
      simp only [he]
      norm_num [h1]
    · exfalso
      linarith [not_lt.mp h1, not_lt.mp h2]

/-! ## Quant8 per-element pseudo-random derivation

Each stochastic path derives a 32-bit word from the element's bit pattern
`x`, its flat index `i`, and the launch seed.  `isF32` selects the
`sizeof(T) == 4` branch.  All values are 32-bit patterns; `% 2 ^ 32` marks
the operations that can wrap (`drop_bits *= 0x7000149` and `i * 229791`). -/

/-- RNG derivation of the generic `Quant8FwdKernel` (source lines 384-389). -/
def quant8RngKernel (isF32 : Bool) (x i seed : ℕ) : ℕ :=
  let drop0 := x &&& 0xFFFF
  let drop1 := if isF32 then drop0 ^^^ (x >>> 16) else drop0
  let drop2 := ((drop1 &&& 31) <<< 11) ||| (drop1 >>> 5)
  let drop3 := (drop2 * 0x7000149) % 2 ^ 32
  drop3 ^^^ 0x13371337 ^^^ (i * 229791) % 2 ^ 32 ^^^ seed

/-- RNG derivation of `Quant8FwdKernel_52` (source lines 411-416). -/
def quant8RngKernel52 (isF32 : Bool) (x i seed : ℕ) : ℕ :=
  let drop0 := x &&& 0xFFFF
  let drop1 := if isF32 then drop0 ^^^ (x >>> 16) else drop0
  let drop2 := ((drop1 &&& 31) <<< 11) ||| (drop1 >>> 5)
  let drop3 := (drop2 * 0x7000149) % 2 ^ 32
  drop3 ^^^ 0x13371337 ^^^ (i * 229791) % 2 ^ 32 ^^^ seed

/-- RNG derivation of `Quant8FwdKernel_43` (source lines 439-445).  Unlike
the generic kernel and the `_52` variant, this block contains the extra
statement `drop_bits += i;` between the rotate and the multiply (line 443). -/
def quant8RngKernel43 (isF32 : Bool) (x i seed : ℕ) : ℕ :=
  let drop0 := x &&& 0xFFFF
  let drop1 := if isF32 then drop0 ^^^ (x >>> 16) else drop0
  let drop2 := ((drop1 &&& 31) <<< 11) ||| (drop1 >>> 5)
  let drop2' := (drop2 + i) % 2 ^ 32
  let drop3 := (drop2' * 0x7000149) % 2 ^ 32
  drop3 ^^^ 0x13371337 ^^^ (i * 229791) % 2 ^ 32 ^^^ seed

/-- The derivation exactly as the claim states it: drop = low 16 bits of x,
XOR the high 16 bits when T is 32-bit, rotate `((drop & 31) << 11) |
(drop >> 5)`, multiply by `0x7000149` with 32-bit wraparound, then
`rng = drop XOR 0x13371337 XOR (i * 229791) XOR seed`. -/
def quant8RngStated (isF32 : Bool) (x i seed : ℕ) : ℕ :=
  let drop0 := x &&& 0xFFFF
  let drop1 := if isF32 then drop0 ^^^ (x >>> 16) else drop0
  let drop2 := ((drop1 &&& 31) <<< 11) ||| (drop1 >>> 5)
  let drop3 := (drop2 * 0x7000149) % 2 ^ 32
  drop3 ^^^ 0x13371337 ^^^ (i * 229791) % 2 ^ 32 ^^^ seed

/-- Claim C2 (amended): the generic kernel (the body of all nine dispatched
`(W1, W2)` instantiations) and the `_52` specialization derive the random
word exactly as stated; the `_43` specialization alone inserts one extra
step, `drop += i` (mod 2^32), between the rotate and the multiply. -/
theorem quant8_rng_derivation (isF32 : Bool) (x i seed : ℕ) :
    quant8RngKernel isF32 x i seed = quant8RngStated isF32 x i seed ∧
    quant8RngKernel52 isF32 x i seed = quant8RngStated isF32 x i seed ∧
    quant8RngKernel43 isF32 x i seed =
      (let drop1 := if isF32 then (x &&& 0xFFFF) ^^^ (x >>> 16) else x &&& 0xFFFF
       let drop2 := ((drop1 &&& 31) <<< 11) ||| (drop1 >>> 5)
       ((((drop2 + i) % 2 ^ 32) * 0x7000149) % 2 ^ 32)
         ^^^ 0x13371337 ^^^ (i * 229791) % 2 ^ 32 ^^^ seed) :=
  ⟨rfl, rfl, rfl⟩

/-- Claim C2 (counterexample to the claim as stated): at `x = 0`, `i = 1`,
`seed = 0`, with a 16-bit `T`, the `_43` specialization's word differs from
the stated derivation, because of its extra `drop_bits += i` step. -/
theorem quant8_rng_counterexample :
    quant8RngKernel43 false 0 1 0 ≠ quant8RngStated false 0 1 0 := by decide

/-! ## Quant8 host launcher (`Quant8Fwd<GPUDevice, T>::operator()`,
source lines 458-516)

The launcher selects a kernel instantiation `Quant8FwdKernel<T, we, wm>`
from `(W1, W2)`, computes `exp_low_cutoff`, and calls `GpuLaunchKernel`
passing the scalar arguments `(count, exp_low_cutoff, stoch)` (line 514).
`Quant8Launch` mirrors exactly what is passed — note there is no seed
field: the call site omits the kernel's `uint32_t seed` parameter, and the
functor itself has no seed argument.  On an unsupported `(W1, W2)` the
launcher prints an error (`errorPrinted`) and still falls through to the
launch with `op` left at its initialization value `Quant8FwdKernel<T,5,3>`. -/

structure Quant8Launch where
  op : ℕ × ℕ
  count : ℕ
  expLowCutoff : ℤ
  stoch : Bool
deriving DecidableEq

structure Quant8HostResult where
  errorPrinted : Bool
  launch : Option Quant8Launch
deriving DecidableEq

/-- The `op` selection if-chain of the launcher (lines 480-512): returns the
selected `(we, wm)` instantiation (initialized to `(5, 3)`) and whether an
`ERROR: bad W1[,W2] value(s)` message was printed. -/
def quant8SelectOp (isF32 : Bool) (W1 W2 : ℤ) : (ℕ × ℕ) × Bool :=
  if W1 = 4 then
    if W2 = 1 then ((4, 1), false)
    else if W2 = 2 then ((4, 2), false)
    else if W2 = 3 then ((4, 3), false)
    else ((5, 3), true)
  else if W1 = 5 ∨ (W1 = 8 ∧ ¬isF32) then
    if W2 = 1 then ((5, 1), false)
    else if W2 = 2 then ((5, 2), false)
    else if W2 = 3 then ((5, 3), false)
    else ((5, 3), true)
  else if W1 = 8 then
    if W2 = 1 then ((8, 1), false)
    else if W2 = 2 then ((8, 2), false)
    else if W2 = 3 then ((8, 3), false)
    else ((5, 3), true)
  else ((5, 3), true)

def Quant8Fwd (isF32 : Bool) (count : ℕ) (W1 W2 : ℤ) (stoch dynamic : Bool) :
    Quant8HostResult :=
  if count = 0 then ⟨false, none⟩
  else
    let logEmax : ℕ := if isF32 then 8 else 5
    let Emax : ℤ := 2 ^ logEmax
    let expLowCutoff : ℤ := Emax / 2 - 2 ^ (W1 - 1).toNat + 1
    ⟨(quant8SelectOp isF32 W1 W2).2,
      some ⟨(quant8SelectOp isF32 W1 W2).1, count, expLowCutoff, stoch⟩⟩

/-- The supported set from the specification. -/
def quant8Supported (W1 W2 : ℤ) : Prop :=
  (W1 = 4 ∨ W1 = 5 ∨ W1 = 8) ∧ (W2 = 1 ∨ W2 = 2 ∨ W2 = 3)

instance (W1 W2 : ℤ) : Decidable (quant8Supported W1 W2) := by
  unfold quant8Supported
  infer_instance

/-- On an unsupported pair the selection falls through with the default
`(5, 3)` op and the error flag set. -/
theorem quant8SelectOp_bad (isF32 : Bool) (W1 W2 : ℤ) (hbad : ¬quant8Supported W1 W2) :
    quant8SelectOp isF32 W1 W2 = ((5, 3), true) := by
  unfold quant8SelectOp
  unfold quant8Supported at hbad
  by_cases h1 : W1 = 4
  · rw [if_pos h1,
      if_neg (show ¬W2 = 1 from fun h => hbad ⟨Or.inl h1, Or.inl h⟩),
      if_neg (show ¬W2 = 2 from fun h => hbad ⟨Or.inl h1, Or.inr (Or.inl h)⟩),
      if_neg (show ¬W2 = 3 from fun h => hbad ⟨Or.inl h1, Or.inr (Or.inr h)⟩)]
  · rw [if_neg h1]
    by_cases h2 : W1 = 5 ∨ (W1 = 8 ∧ ¬isF32)
    · have hW1 : W1 = 4 ∨ W1 = 5 ∨ W1 = 8 := by
        rcases h2 with h | h
        · exact Or.inr (Or.inl h)
        · exact Or.inr (Or.inr h.1)
      rw [if_pos h2,
        if_neg (show ¬W2 = 1 from fun h => hbad ⟨hW1, Or.inl h⟩),
        if_neg (show ¬W2 = 2 from fun h => hbad ⟨hW1, Or.inr (Or.inl h)⟩),
        if_neg (show ¬W2 = 3 from fun h => hbad ⟨hW1, Or.inr (Or.inr h)⟩)]
    · rw [if_neg h2]
      by_cases h3 : W1 = 8
      · rw [if_pos h3,
          if_neg (show ¬W2 = 1 from fun h => hbad ⟨Or.inr (Or.inr h3), Or.inl h⟩),
          if_neg (show ¬W2 = 2 from fun h => hbad ⟨Or.inr (Or.inr h3), Or.inr (Or.inl h)⟩),
          if_neg (show ¬W2 = 3 from fun h => hbad ⟨Or.inr (Or.inr h3), Or.inr (Or.inr h)⟩)]
      · rw [if_neg h3]

/-- Claim C8 (amended): on a `(W1, W2)` pair outside the supported set the
launcher prints an error message to stdout, returns no error to the caller,
and still launches the generic quantization kernel with the substituted
default parameters `(5, 3)`. -/
theorem quant8_bad_config_launches_default (isF32 : Bool) (count : ℕ) (W1 W2 : ℤ)
    (stoch dynamic : Bool) (hcount : 0 < count) (hbad : ¬quant8Supported W1 W2) :
    (Quant8Fwd isF32 count W1 W2 stoch dynamic).errorPrinted = true ∧
    ∃ L, (Quant8Fwd isF32 count W1 W2 stoch dynamic).launch = some L ∧
      L.op = (5, 3) ∧ L.count = count ∧ L.stoch = stoch := by
  unfold Quant8Fwd
  rw [if_neg (by omega)]
  rw [quant8SelectOp_bad isF32 W1 W2 hbad]
  exact ⟨rfl, _, rfl, rfl, rfl, rfl⟩

/-- Witness for the amended C8 theorem at `(W1, W2) = (9, 1)`, f32. -/
theorem quant8_bad_config_launches_default_witness :
    (Quant8Fwd true 2 9 1 true false).errorPrinted = true ∧
    ∃ L, (Quant8Fwd true 2 9 1 true false).launch = some L ∧
      L.op = (5, 3) ∧ L.count = 2 ∧ L.stoch = true :=
  quant8_bad_config_launches_default true 2 9 1 true false (by decide) (by decide)

/-- Claim C8 (counterexample to the claim as stated): for the unsupported pair
`(W1, W2) = (6, 2)` (f16, count 1) the launcher does not stop: it prints the
error and still launches the `(5, 3)` kernel, with
`exp_low_cutoff = 16 - 2^5 + 1 = -15`. -/
theorem quant8_bad_config_counterexample :
    (Quant8Fwd false 1 6 2 false false).errorPrinted = true ∧
    (Quant8Fwd false 1 6 2 false false).launch = some ⟨(5, 3), 1, -15, false⟩ := by
  constructor
  · rfl
  · rfl

/-- Claim C3 (the code, not the claim): the complete record of scalar data the
launcher passes to the kernel launch carries no seed (the `Quant8Launch`
type mirrors the call site, which passes only `(count, exp_low_cutoff,
stoch)` although the kernel signature ends in `bool stoch, uint32_t seed`),
while the kernel's stochastic derivation genuinely depends on its seed
argument — so no launcher-supplied seed ever reaches the stochastic path. -/
theorem quant8Fwd_launch_carries_no_seed :
    Quant8Fwd false 1 5 2 true false = ⟨false, some ⟨(5, 2), 1, 1, true⟩⟩ ∧
    quant8RngKernel false 0x3C00 0 0x1234 ≠ quant8RngKernel false 0x3C00 0 0x5678 := by
  constructor
  · rfl
  · decide

/-! ## Packed int8 launcher byte coverage
(`Relu<Device, qint8>::operator()`, source lines 231-244) -/

/-- The word count `vect_count = Eigen::divup(count, 4)`: the number of 32-bit words the
launcher asks the kernel to process (line 236). -/
def reluInt8VectCount (count : ℕ) : ℕ := (count + 3) / 4

/-- Byte indices read (and written) by one kernel thread:
`CUDA_1D_KERNEL_LOOP(index, vect_count)` grid-strides over word indices;
word `index` loads and stores `int32` number `index`, i.e. bytes
`4*index .. 4*index+3` of the qint8 buffer. -/
def reluInt8ThreadBytes (P count t : ℕ) : List ℕ :=
  (gridStrideLoop P (reluInt8VectCount count) t).flatMap fun wi =>
    [4 * wi, 4 * wi + 1, 4 * wi + 2, 4 * wi + 3]

/-- All byte indices touched by a launch with `P` total threads. -/
def reluInt8TouchedBytes (P count : ℕ) : List ℕ :=
  (List.range P).flatMap (reluInt8ThreadBytes P count)

/-- Claim C9: the packed int8 launcher processes `⌈count/4⌉` 32-bit words, so
the bytes touched are exactly `[0, 4*⌈count/4⌉)`: when `4 ∣ count` exactly
the `count` buffer bytes are read and written; otherwise the trailing bytes
`count .. 4*⌈count/4⌉ - 1` are read and written as well. -/
theorem relu_int8_touched_bytes (P count : ℕ) (hP : 0 < P) :
    (∀ b, b ∈ reluInt8TouchedBytes P count ↔ b < 4 * reluInt8VectCount count) ∧
    (count % 4 = 0 → 4 * reluInt8VectCount count = count) ∧
    (count % 4 ≠ 0 → count < 4 * reluInt8VectCount count ∧
      ∀ b, count ≤ b → b < 4 * reluInt8VectCount count →
        b ∈ reluInt8TouchedBytes P count) := by
  have hmem : ∀ b, b ∈ reluInt8TouchedBytes P count ↔ b < 4 * reluInt8VectCount count := by
    intro b
    unfold reluInt8TouchedBytes reluInt8ThreadBytes
    simp only [List.mem_flatMap, List.mem_range]
    constructor
    · rintro ⟨t, ht, wi, hwi, hb⟩
      rw [mem_gridStrideLoop_thread hP ht] at hwi
      simp only [List.mem_cons, List.not_mem_nil, or_false] at hb
      omega
    · intro hb
      refine ⟨(b / 4) % P, Nat.mod_lt _ hP, b / 4, ?_, ?_⟩
      · rw [mem_gridStrideLoop_thread hP (Nat.mod_lt _ hP)]
        exact ⟨by omega, rfl⟩
      · simp only [List.mem_cons, List.not_mem_nil, or_false]
        omega
  refine ⟨hmem, fun h4 => by unfold reluInt8VectCount; omega, fun h4 => ⟨?_, fun b hb1 hb2 => ?_⟩⟩
  · unfold reluInt8VectCount
    omega
  · exact (hmem b).2 hb2

/-- Witness for C9 at `count = 6` (not a multiple of 4), `P = 2`. -/
theorem relu_int8_touched_bytes_witness :
    (∀ b, b ∈ reluInt8TouchedBytes 2 6 ↔ b < 4 * reluInt8VectCount 6) ∧
    (6 % 4 = 0 → 4 * reluInt8VectCount 6 = 6) ∧
    (6 % 4 ≠ 0 → 6 < 4 * reluInt8VectCount 6 ∧
      ∀ b, 6 ≤ b → b < 4 * reluInt8VectCount 6 → b ∈ reluInt8TouchedBytes 2 6) :=
  relu_int8_touched_bytes 2 6 (by decide)

/-! ## Quant8 forward kernels: store behavior

`Quant8FwdKernel<T, we, wm>` (source lines 367-392) and
`Quant8FwdKernel_52` (lines 394-420).  Buffers hold 16/32-bit patterns
(`ℕ`).  The narrow-float encode/decode (`hip_f8_impl::cast_to_f8` /
`cast_from_f8`) live in the external header `hip_float8.h`, which is not
part of this repository snapshot; the `_52` kernel takes their composition
as the parameter `castRT`.  The dispatched launch geometry is
`⌈count/256⌉` blocks of 256 threads, so `count ≤ P`. -/

/-- A launch of the generic `Quant8FwdKernel<T, we, wm>` with `P` total
threads: each thread `i < count` reads `x = in[i]`, computes the narrow
encoding (and, when `stoch`, the rng word) into the local `y`
(lines 380-391) — and never assigns `fout[i]`.  Every thread's write-event
list is therefore empty, whatever the cast computes, and the output buffer
comes back unchanged. -/
def Quant8FwdKernelRun (P count : ℕ) (stoch : Bool) (seed : ℕ) (out : List ℕ) : List ℕ :=
  applyWrites ((List.range P).flatMap fun _ => ([] : List (ℕ × ℕ))) out

/-- A launch of `Quant8FwdKernel_52` with `stoch = false`: each thread
`i < count` computes `y = cast_to_f8<2,5>(fin[i])` (line 409) and stores
`fout[i] = cast_from_f8<2,5>(y)` (line 419); `castRT` is the composition
`cast_from_f8 ∘ cast_to_f8` on bit patterns. -/
def Quant8FwdKernel52Run (castRT : ℕ → ℕ) (P count : ℕ) (fin : ℕ → ℕ)
    (out : List ℕ) : List ℕ :=
  applyWrites ((List.range P).flatMap fun t =>
    if t < count then [(t, castRT (fin t))] else []) out

/-- Claim C1 (divergence): the generic `Quant8FwdKernel` — the only kernel the
launcher ever dispatches, for all nine `(W1, W2)` pairs — returns the output
buffer unchanged for every input, geometry, stoch flag and seed, because its
body never stores `fout[i]`; whereas the decode-and-store contract the
specification states (and `Quant8FwdKernel_52` implements) fills
`output[i] = castRT (input[i])` for every `i < count`. -/
theorem quant8_generic_never_stores :
    (∀ (P count : ℕ) (stoch : Bool) (seed : ℕ) (out : List ℕ),
      Quant8FwdKernelRun P count stoch seed out = out) ∧
    (∀ (castRT : ℕ → ℕ) (P count : ℕ) (fin : ℕ → ℕ) (out : List ℕ),
      count ≤ P → out.length = count →
      Quant8FwdKernel52Run castRT P count fin out =
        (List.range count).map fun i => castRT (fin i)) := by
  constructor
  · intro P count stoch seed out
    unfold Quant8FwdKernelRun
    have hnil : ((List.range P).flatMap fun _ => ([] : List (ℕ × ℕ))) = [] := by
      induction List.range P with
      | nil => rfl
      | cons a l ih => simp [List.flatMap_cons, ih]
    rw [hnil]
    rfl
  · intro castRT P count fin out hP hlen
    unfold Quant8FwdKernel52Run
    have hval : ∀ p ∈ (List.range P).flatMap fun t =>
        if t < count then [(t, castRT (fin t))] else [],
        p.2 = castRT (fin p.1) := by
      intro p hp
      rw [List.mem_flatMap] at hp
      obtain ⟨t, _, hp⟩ := hp
      rcases Decidable.em (t < count) with hc | hc
      · rw [if_pos hc] at hp
        simp only [List.mem_cons, List.not_mem_nil, or_false] at hp
        subst hp
        rfl
      · rw [if_neg hc] at hp
        simp at hp
    have hmem : ∀ j, (j ∈ ((List.range P).flatMap fun t =>
        if t < count then [(t, castRT (fin t))] else []).map Prod.fst) ↔ j < count := by
      intro j
      rw [List.map_flatMap]
      simp only [List.mem_flatMap, List.mem_range]
      constructor
      · rintro ⟨t, ht, hj⟩
        rcases Decidable.em (t < count) with hc | hc
        · rw [if_pos hc] at hj
          simp only [List.map_cons, List.map_nil, List.mem_cons, List.not_mem_nil,
            or_false] at hj
          omega
        · rw [if_neg hc] at hj
          simp at hj
      · intro hj
        refine ⟨j, by omega, ?_⟩
        rw [if_pos hj]
        simp
    apply List.ext_getElem?
    intro j
    rw [applyWrites_getElem? (fun i => castRT (fin i)) _ hval out j]
    rw [List.getElem?_map]
    by_cases hj : j < count
    · rw [if_pos ⟨(hmem j).2 hj, by omega⟩, List.getElem?_range hj]
      rfl
    · rw [if_neg (fun hx => hj ((hmem j).1 hx.1)),
        List.getElem?_eq_none (by omega), List.getElem?_eq_none (by simp; omega)]
      rfl

/-- Witness for the C1 divergence theorem: a 4-thread launch over a
2-element buffer, with a concrete stand-in for the external cast. -/
theorem quant8_generic_never_stores_witness :
    Quant8FwdKernelRun 4 2 true 99 [7, 7] = [7, 7] ∧
    Quant8FwdKernel52Run (fun h => h &&& 0xFC00) 4 2 (fun i => 0x3C01 + i) [7, 7] =
      (List.range 2).map fun i => (fun h => h &&& 0xFC00) ((fun i => 0x3C01 + i) i) :=
  ⟨quant8_generic_never_stores.1 4 2 true 99 [7, 7],
   quant8_generic_never_stores.2 (fun h => h &&& 0xFC00) 4 2 (fun i => 0x3C01 + i)
     [7, 7] (by decide) (by decide)⟩

end TFReluGpu
